import Mathlib

/-!
Verification of `scgi_run.c`, a one-shot SCGI-to-CGI adapter.

The development shallowly embeds the C program:
* bytes are `Nat` (the values read from the stream are octets);
* the input stream is a `List Nat` (a `read` that would block forever or hit
  end-of-file corresponds to running off the end of the list);
* NUL-terminated C strings are NUL-free `List Nat` values;
* the process environment is a function `List Nat → Option (List Nat)`
  (`setenv`/`unsetenv`/`getenv` become function update and application);
* `return_error` + `exit(1)` become a `String × Nat` response value;
* `execve` is an oracle parameter returning `none` on success (the process
  image is replaced) or the failing `errno`.

Out-of-bounds reads (undefined behaviour in the C) are modelled as explicit
outcomes (`WalkOut.oob`, `ParseOut.oobOut`, `ResolveOut.oobArg`,
`MainOut.undef`) so that safety claims about them can be stated.
-/

/-- `MAX_HEADER_LENGTH` from `scgi_run.c`: sanity bound on the declared
netstring length. -/
def MAX_HEADER_LENGTH : Nat := 262144

/-- C `isdigit` on an octet: true exactly for ASCII '0'..'9'. -/
def isDigitB (c : Nat) : Bool := 48 ≤ c && c ≤ 57

/-- One step of decimal-length accumulation: `length = (length * 10) + (ch - '0')`. -/
def digitStep (a d : Nat) : Nat := a * 10 + (d - 48)

/-- Value of a digit string accumulated starting from `a`. -/
def digitsValFrom (a : Nat) (ds : List Nat) : Nat := ds.foldl digitStep a

/-- Decimal value of a digit string. -/
def digitsVal (ds : List Nat) : Nat := digitsValFrom 0 ds

/-- Error taxonomy: one constructor per `return_error` call site reachable from
`read_scgi_environment` (the unmodelled `malloc` failure excepted). -/
inductive ScgiError where
  | streamTruncated
  | notDigit (ch : Nat)
  | lengthTooBig
  | invalidLengthChar (ch : Nat)
  | headerTruncated
  | missingComma
  | corruptTable
deriving DecidableEq, Repr

/-- The digit-accumulation loop of `read_scgi_environment` (lines 100-114 of
`scgi_run.c`).  Each iteration reads one byte via `read_char` (empty stream =
truncated).  A digit extends the accumulator and is bounds-checked; `:` stops;
anything else is an error.  The C compares `length < 0 || length > MAX`
on a 32-bit `int`; since the accumulator is at most `MAX_HEADER_LENGTH`
before each step, the value after a step is at most `2621449 < 2^31`, so
signed overflow is unreachable and the `Nat` model is exact. -/
def readLenLoop (acc : Nat) : List Nat → Except ScgiError (Nat × List Nat)
  | [] => .error .streamTruncated
  | c :: rest =>
    if isDigitB c then
      if MAX_HEADER_LENGTH < digitStep acc c then .error .lengthTooBig
      else readLenLoop (digitStep acc c) rest
    else if c = 58 then .ok (acc, rest)
    else .error (.invalidLengthChar c)

/-- Reading the length prefix (lines 93-114): the first byte must be a digit,
then the loop above runs. -/
def readLen : List Nat → Except ScgiError (Nat × List Nat)
  | [] => .error .streamTruncated
  | c :: rest =>
    if isDigitB c then readLenLoop (c - 48) rest
    else .error (.notDigit c)

/-- Distance to the first NUL byte of a list, `none` if there is none
(i.e. a C `strlen` scan starting here would run past the end). -/
def findNulAux : List Nat → Option Nat
  | [] => none
  | b :: bs => if b = 0 then some 0 else (findNulAux bs).map (· + 1)

/-- Position of the first NUL byte of `buf` at or after position `p`:
the byte positions a `strlen` starting at `buf + p` examines are
`p, p+1, …, findNul buf p`.  `none` means the scan leaves the buffer. -/
def findNul (buf : List Nat) (p : Nat) : Option Nat :=
  (findNulAux (buf.drop p)).map (p + ·)

/-- The bytes of `buf` from position `a` (inclusive) to `b` (exclusive):
the C string starting at `buf + a` whose terminating NUL sits at `b`. -/
def extract (buf : List Nat) (a b : Nat) : List Nat :=
  (buf.drop a).take (b - a)

/-- `findNul` results are at or after the start position. -/
theorem findNul_ge {buf : List Nat} {p j : Nat} (h : findNul buf p = some j) : p ≤ j := by
  unfold findNul at h
  cases hf : findNulAux (buf.drop p) with
  | none => rw [hf] at h; simp [Option.map] at h
  | some i => rw [hf] at h; simp [Option.map] at h; omega

/-- Outcome of the name/value walk (lines 131-141 of `scgi_run.c`), starting
from some position of the header buffer.  The pair list carries the pairs
`setenv`-ed from that position on (in loop order).  `corrupt` is the
"Corrupt name/value table" error; `oob` marks a `strlen` scan that leaves
the `length+1`-byte allocation (undefined behaviour in the C). -/
inductive WalkOut where
  | done (ps : List (List Nat × List Nat))
  | corrupt (ps : List (List Nat × List Nat))
  | oob (ps : List (List Nat × List Nat))
deriving DecidableEq, Repr

/-- The walk itself.  `p` is the offset of `name` within the buffer, `len`
the declared header length.  Loop condition: `name < headers + length`.
`value = name + strlen(name) + 1`; error if `value >= headers + length`;
otherwise the pair is `setenv`-ed and `name = value + strlen(value) + 1`. -/
def walk (buf : List Nat) (len p : Nat) : WalkOut :=
  if h : p < len then
    match hn : findNul buf p with
    | none => .oob []
    | some n1 =>
      if hv : len ≤ n1 + 1 then .corrupt []
      else
        match hm : findNul buf (n1 + 1) with
        | none => .oob []
        | some n2 =>
          match walk buf len (n2 + 1) with
          | .done ps => .done ((extract buf p n1, extract buf (n1 + 1) n2) :: ps)
          | .corrupt ps => .corrupt ((extract buf p n1, extract buf (n1 + 1) n2) :: ps)
          | .oob ps => .oob ((extract buf p n1, extract buf (n1 + 1) n2) :: ps)
  else .done []
termination_by len - p
decreasing_by
  have h1 := findNul_ge hn
  have h2 := findNul_ge hm
  omega

/-- Loop exit: `name < headers + length` fails. -/
theorem walk_stop {buf : List Nat} {len p : Nat} (h : ¬ p < len) :
    walk buf len p = .done [] := by
  rw [walk]
  simp [h]

/-- The scan for the name's terminating NUL leaves the buffer. -/
theorem walk_oob_name {buf : List Nat} {len p : Nat} (h : p < len)
    (hn : findNul buf p = none) : walk buf len p = .oob [] := by
  rw [walk]
  simp only [dif_pos h]
  split
  case h_1 heq => rfl
  case h_2 m heq => simp [hn] at heq

/-- The value's computed start position is at or past the end of the
`len`-byte region: "Corrupt name/value table". -/
theorem walk_corrupt_here {buf : List Nat} {len p n1 : Nat} (h : p < len)
    (hn : findNul buf p = some n1) (hv : len ≤ n1 + 1) :
    walk buf len p = .corrupt [] := by
  rw [walk]
  simp only [dif_pos h]
  split
  case h_1 heq => simp [hn] at heq
  case h_2 m heq =>
    rw [hn] at heq
    cases heq
    simp [hv]

/-- The scan for the value's terminating NUL leaves the buffer. -/
theorem walk_oob_value {buf : List Nat} {len p n1 : Nat} (h : p < len)
    (hn : findNul buf p = some n1) (hv : ¬ len ≤ n1 + 1)
    (hm : findNul buf (n1 + 1) = none) : walk buf len p = .oob [] := by
  rw [walk]
  simp only [dif_pos h]
  split
  case h_1 heq => rfl
  case h_2 m heq =>
    rw [hn] at heq
    cases heq
    simp only [dif_neg hv]
    split
    case h_1 heq2 => rfl
    case h_2 m2 heq2 => simp [hm] at heq2

/-- One full loop iteration: a pair is extracted and `setenv`-ed, and the walk
continues at `value + strlen(value) + 1`. -/
theorem walk_step {buf : List Nat} {len p n1 n2 : Nat} (h : p < len)
    (hn : findNul buf p = some n1) (hv : ¬ len ≤ n1 + 1)
    (hm : findNul buf (n1 + 1) = some n2) :
    walk buf len p =
      match walk buf len (n2 + 1) with
      | .done ps => .done ((extract buf p n1, extract buf (n1 + 1) n2) :: ps)
      | .corrupt ps => .corrupt ((extract buf p n1, extract buf (n1 + 1) n2) :: ps)
      | .oob ps => .oob ((extract buf p n1, extract buf (n1 + 1) n2) :: ps) := by
  conv_lhs => rw [walk]
  simp only [dif_pos h]
  split
  case h_1 heq => simp [hn] at heq
  case h_2 m heq =>
    rw [hn] at heq
    cases heq
    simp only [dif_neg hv]
    split
    case h_1 heq2 => simp [hm] at heq2
    case h_2 m2 heq2 =>
      rw [hm] at heq2
      cases heq2
      rfl

/-- Result of `read_scgi_environment` on a whole input stream.  `ok` carries
the parsed pairs (in input order; they are `setenv`-ed in this order) and the
unconsumed remainder of the stream (the request body).  `err` carries the
error and the pairs already `setenv`-ed before the failure (the C mutates the
process environment while walking).  `oobOut` marks an out-of-bounds scan. -/
inductive ParseOut where
  | ok (ps : List (List Nat × List Nat)) (remaining : List Nat)
  | err (e : ScgiError) (applied : List (List Nat × List Nat))
  | oobOut (applied : List (List Nat × List Nat))
deriving DecidableEq, Repr

/-- Lines 118-142 of `scgi_run.c`: after the length and its `:` have been
read, read exactly `len+1` bytes (error if the stream has fewer), check that
byte `len` is the `,` delimiter, and (when `len` is nonzero, the C's
`if (length)`) walk the name/value table. -/
def parseBlock (len : Nat) (rest : List Nat) : ParseOut :=
  if rest.length < len + 1 then .err .headerTruncated []
  else if (rest.take (len + 1)).getD len 0 ≠ 44 then .err .missingComma []
  else if len = 0 then .ok [] (rest.drop (len + 1))
  else
    match walk (rest.take (len + 1)) len 0 with
    | .done ps => .ok ps (rest.drop (len + 1))
    | .corrupt ps => .err .corruptTable ps
    | .oob ps => .oobOut ps

/-- The whole of `read_scgi_environment`: length prefix, then header block. -/
def parseScgi (s : List Nat) : ParseOut :=
  match readLen s with
  | .error e => .err e []
  | .ok (len, rest) => parseBlock len rest

/-- A process environment: name ↦ value.  `getenv` is application. -/
def EnvF : Type := List Nat → Option (List Nat)

/-- `setenv(name, value, 1)`: overwrite unconditionally. -/
def setenvF (e : EnvF) (n v : List Nat) : EnvF :=
  fun m => if m = n then some v else e m

/-- `unsetenv(name)`. -/
def unsetenvF (e : EnvF) (n : List Nat) : EnvF :=
  fun m => if m = n then none else e m

/-- `setenv` each parsed pair in input order (what the walk's loop body does). -/
def applyPairs (e : EnvF) (ps : List (List Nat × List Nat)) : EnvF :=
  ps.foldl (fun a q => setenvF a q.1 q.2) e

/-- The value the last pair named `n` carries, if any. -/
def lastVal (ps : List (List Nat × List Nat)) (n : List Nat) : Option (List Nat) :=
  ps.foldl (fun acc q => if q.1 = n then some q.2 else acc) none

/-- Byte string of an ASCII Lean string literal. -/
def strBytes (s : String) : List Nat := s.toList.map Char.toNat

/-- The protocol-selector marker variable, `"SCGI"`. -/
def nmSCGI : List Nat := strBytes "SCGI"

/-- The handler-path variable, `"SCRIPT_FILENAME"`. -/
def nmSCRIPT_FILENAME : List Nat := strBytes "SCRIPT_FILENAME"

/-- The legacy-gateway compatibility marker, `"GATEWAY_INTERFACE"`. -/
def nmGATEWAY_INTERFACE : List Nat := strBytes "GATEWAY_INTERFACE"

/-- Its fixed value, `"CGI/1.1"`. -/
def vCGI11 : List Nat := strBytes "CGI/1.1"

/-- Lines 158-160 of `main`: the effective environment handed to the handler,
built from the ambient environment `e0` and the parsed pairs `ps`:
`setenv` each pair in order, then `unsetenv("SCGI")`, then
`setenv("GATEWAY_INTERFACE", "CGI/1.1", 1)`. -/
def effEnv (e0 : EnvF) (ps : List (List Nat × List Nat)) : EnvF :=
  setenvF (unsetenvF (applyPairs e0 ps) nmSCGI) nmGATEWAY_INTERFACE vCGI11

/-- Hex digits, lowercase, as printed by C `printf("%x")`. -/
def hexDigit (n : Nat) : Char := Char.ofNat (if n < 10 then 48 + n else 87 + n)

/-- Hex digit expansion of a positive number, most significant first. -/
def toHexAux (n : Nat) : List Char :=
  if h : n = 0 then [] else toHexAux (n / 16) ++ [hexDigit (n % 16)]
termination_by n
decreasing_by exact Nat.div_lt_self (Nat.pos_of_ne_zero h) (by norm_num)

/-- `printf("%x", n)` for a non-negative `n`. -/
def toHex (n : Nat) : String := if n = 0 then "0" else String.mk (toHexAux n)

/-- The ASCII rendering of a byte string (`%s` of a NUL-free C string). -/
def bytesToStr (l : List Nat) : String := String.mk (l.map Char.ofNat)

/-- The output format of `return_error` (line 71):
`Status: <status>\r\nContent-Type: text/plain\r\n\r\n<msg>\r\n`. -/
def respFmt (status msg : String) : String :=
  "Status: " ++ status ++ "\r\nContent-Type: text/plain\r\n\r\n" ++ msg ++ "\r\n"

/-- `return_error(status, msg)`: the response written to stdout and the exit
status of the process (always `exit(1)`). -/
def return_error (status msg : String) : String × Nat := (respFmt status msg, 1)

/-- The status string of each parse failure's `return_error` call. -/
def scgiStatus : ScgiError → String
  | .invalidLengthChar _ => "500 Invalid SCGI header"
  | _ => "500 Internal Error"

/-- The formatted message of each parse failure's `return_error` call. -/
def scgiMsg : ScgiError → String
  | .streamTruncated => "SCGI stream truncated"
  | .notDigit ch => "SCGI stream didn't start with a digit, started with char 0x" ++ toHex ch
  | .lengthTooBig => "SCGI Header length is not in the range 0.." ++ Nat.repr MAX_HEADER_LENGTH
  | .invalidLengthChar ch => "Invalid character 0x" ++ toHex ch ++ " in length"
  | .headerTruncated => "SCGI Header truncated"
  | .missingComma => "SCGI Header: Incomplete netstring, missing comma"
  | .corruptTable => "SCGI Header: Corrupt name/value table"

/-- Outcome of the command-line handling of `main` (lines 162-178).
`oobArg` marks the out-of-bounds read `argv[1][strlen(argv[1]) - 1]` made
when the first argument is the empty string. -/
inductive ResolveOut where
  | oobArg
  | noScript
  | resolved (script : List Nat) (checkDir : Option (List Nat)) (args : List (List Nat))
deriving DecidableEq, Repr

/-- Path resolution: `script_filename = getenv("SCRIPT_FILENAME")` with
`new_argv = {script_filename, NULL}`; if a first argument is present and its
last byte is `/` it becomes `check_directory`, otherwise it overrides the
script path and `exec_args = &argv[1]`; error if no script path results. -/
def resolveScript (envScript : Option (List Nat)) (argvTail : List (List Nat)) :
    ResolveOut :=
  match argvTail with
  | [] =>
    match envScript with
    | none => .noScript
    | some s => .resolved s none [s]
  | a :: rest =>
    if a = [] then .oobArg
    else if a.getLast? = some 47 then
      match envScript with
      | none => .noScript
      | some s => .resolved s (some a) [s]
    else .resolved a none (a :: rest)

/-- The index `strlen(argv[1]) - 1` (as a mathematical integer) that the
classification step reads from the first argument. -/
def argClassifyIndex (arg : List Nat) : Int := (arg.length : Int) - 1

/-- The read `argv[1][strlen(argv[1]) - 1]` stays inside the argument. -/
def argIndexInBounds (arg : List Nat) : Prop :=
  0 ≤ argClassifyIndex arg ∧ argClassifyIndex arg < (arg.length : Int)

/-- The parent-directory traversal token `"../"`. -/
def dotdotslash : List Nat := strBytes "../"

/-- C `strstr(s, pat) != NULL` on NUL-free byte strings: does `pat` occur as a
contiguous substring of `s`? -/
def containsSub (pat s : List Nat) : Bool :=
  if pat.isPrefixOf s then true
  else
    match s with
    | [] => false
    | _ :: t => containsSub pat t

/-- The two string-level path checks of `main` (lines 180-190), in source
order: the `strstr(script_filename, "../")` rejection, then (when
`check_directory` is set) the `strncmp(check_directory, script_filename,
strlen(check_directory))` literal-prefix rejection.  `none` means the path
reaches `execve`; `some (status, msg)` is the `return_error` call made. -/
def checkPath (script : List Nat) (checkDir : Option (List Nat)) :
    Option (String × String) :=
  if containsSub dotdotslash script then
    some ("500 Internal Error", "SCRIPT_FILENAME should not include \"../\"")
  else
    match checkDir with
    | none => none
    | some d =>
      if d.isPrefixOf script then none
      else
        some ("500 Internal Error",
          "[" ++ bytesToStr script ++ "] doesn't reside under [" ++ bytesToStr d ++ "]")

/-- Result of `execve`: `none` = the process image was replaced; otherwise the
`errno` cause, `enoent` or any other cause with its `strerror` text. -/
inductive ExecErr where
  | enoent
  | other (reason : String)
deriving DecidableEq, Repr

/-- Terminal outcome of one process invocation: image replaced by the handler,
or one error response written and `exit(1)`, or undefined behaviour. -/
inductive MainOut where
  | replaced (script : List Nat) (args : List (List Nat)) (env : EnvF)
  | failed (response : String) (code : Nat)
  | undef

/-- `return_error` followed by `exit(1)`, as a `MainOut`. -/
def fail (status msg : String) : MainOut :=
  .failed (return_error status msg).1 (return_error status msg).2

/-- The whole of `main` (lines 144-201), parameterised by the input stream,
`argv[1..]`, the ambient environment, and the `execve` oracle. -/
def mainRun (stdin : List Nat) (argvTail : List (List Nat)) (env0 : EnvF)
    (execR : List Nat → List (List Nat) → EnvF → Option ExecErr) : MainOut :=
  match parseScgi stdin with
  | .oobOut _ => .undef
  | .err e _ => fail (scgiStatus e) (scgiMsg e)
  | .ok ps _ =>
    match resolveScript (effEnv env0 ps nmSCRIPT_FILENAME) argvTail with
    | .oobArg => .undef
    | .noScript => fail "500 Internal Error" "CGI environment missing SCRIPT_FILENAME"
    | .resolved script checkDir args =>
      match checkPath script checkDir with
      | some r => fail r.1 r.2
      | none =>
        match execR script args (effEnv env0 ps) with
        | none => .replaced script args (effEnv env0 ps)
        | some .enoent => fail "404 Not Found" "Can't locate CGI script\n"
        | some (.other t) =>
          fail "500 Internal Error"
            ("Unable to execute CGI script, please contact the system administrator\n"
              ++ t ++ "\n")

/-- The wire encoding of one (name, value) pair: `name NUL value NUL`. -/
def encodePair (q : List Nat × List Nat) : List Nat := q.1 ++ 0 :: (q.2 ++ [0])

/-- The wire encoding of a pair list: the payload of the header block. -/
def encodePairs (ps : List (List Nat × List Nat)) : List Nat :=
  (ps.map encodePair).flatten

/-- Names and values are NUL-free (they came from NUL-terminated C strings). -/
def NulFreePairs (ps : List (List Nat × List Nat)) : Prop :=
  ∀ q ∈ ps, (∀ b ∈ q.1, b ≠ 0) ∧ (∀ b ∈ q.2, b ≠ 0)

instance : DecidablePred NulFreePairs := by
  unfold NulFreePairs
  infer_instance

theorem findNulAux_nulfree {l : List Nat} (h : ∀ b ∈ l, b ≠ 0) :
    findNulAux l = none := by
  induction l with
  | nil => rfl
  | cons a t ih =>
    have ha : a ≠ 0 := h a (List.mem_cons_self a t)
    have ht : ∀ b ∈ t, b ≠ 0 := fun b hb => h b (List.mem_cons_of_mem a hb)
    simp [findNulAux, ha, ih ht]

theorem findNulAux_append {s t : List Nat} (h : ∀ b ∈ s, b ≠ 0) :
    findNulAux (s ++ 0 :: t) = some s.length := by
  induction s with
  | nil => simp [findNulAux]
  | cons a r ih =>
    have ha : a ≠ 0 := h a (List.mem_cons_self a r)
    have hr : ∀ b ∈ r, b ≠ 0 := fun b hb => h b (List.mem_cons_of_mem a hb)
    simp [findNulAux, ha, ih hr]

/-- The scan starting at `p` finds the NUL that terminates the NUL-free run
`s` sitting at position `p`. -/
theorem findNul_at {buf : List Nat} {p : Nat} {s t : List Nat}
    (hd : buf.drop p = s ++ 0 :: t) (hs : ∀ b ∈ s, b ≠ 0) :
    findNul buf p = some (p + s.length) := by
  unfold findNul
  rw [hd, findNulAux_append hs]
  rfl

/-- The scan starting at `p` runs off the end of a NUL-free tail. -/
theorem findNul_none {buf : List Nat} {p : Nat}
    (h : ∀ b ∈ buf.drop p, b ≠ 0) : findNul buf p = none := by
  unfold findNul
  rw [findNulAux_nulfree h]
  rfl

theorem digitsValFrom_ge (ds : List Nat) : ∀ a : Nat, a ≤ digitsValFrom a ds := by
  induction ds with
  | nil => intro a; simp [digitsValFrom]
  | cons d t ih =>
    intro a
    have h1 : a ≤ digitStep a d := by unfold digitStep; omega
    have h2 : digitStep a d ≤ digitsValFrom (digitStep a d) t := ih _
    calc a ≤ digitStep a d := h1
      _ ≤ digitsValFrom (digitStep a d) t := h2
      _ = digitsValFrom a (d :: t) := by simp [digitsValFrom, List.foldl]

/-- The digit loop accepts any digit string whose value stays within the
bound, stops at the `:`, and returns the accumulated value. -/
theorem readLenLoop_ok {ds : List Nat} {rest : List Nat} {a : Nat}
    (hds : ∀ d ∈ ds, isDigitB d = true)
    (hb : digitsValFrom a ds ≤ MAX_HEADER_LENGTH) :
    readLenLoop a (ds ++ 58 :: rest) = .ok (digitsValFrom a ds, rest) := by
  induction ds generalizing a with
  | nil =>
    simp only [List.nil_append, readLenLoop]
    norm_num [isDigitB, digitsValFrom]
  | cons d t ih =>
    have hd : isDigitB d = true := hds d (List.mem_cons_self d t)
    have ht : ∀ x ∈ t, isDigitB x = true := fun x hx => hds x (List.mem_cons_of_mem d hx)
    have hval : digitsValFrom a (d :: t) = digitsValFrom (digitStep a d) t := by
      simp [digitsValFrom, List.foldl]
    have hstep : ¬ MAX_HEADER_LENGTH < digitStep a d := by
      have := digitsValFrom_ge t (digitStep a d)
      rw [hval] at hb
      omega
    simp only [List.cons_append, readLenLoop, hd, if_true, hstep, if_false]
    rw [hval]
    exact ih ht (hval ▸ hb)

/-- If the digit string's value exceeds the bound, the loop reports
`lengthTooBig` while still inside the digit string: the result does not
depend on anything after the digits. -/
theorem readLenLoop_overflow {ds rest : List Nat} {a : Nat}
    (hds : ∀ d ∈ ds, isDigitB d = true)
    (ha : a ≤ MAX_HEADER_LENGTH)
    (hb : MAX_HEADER_LENGTH < digitsValFrom a ds) :
    readLenLoop a (ds ++ rest) = .error .lengthTooBig := by
  induction ds generalizing a with
  | nil =>
    exfalso
    simp [digitsValFrom] at hb
    omega
  | cons d t ih =>
    have hd : isDigitB d = true := hds d (List.mem_cons_self d t)
    have ht : ∀ x ∈ t, isDigitB x = true := fun x hx => hds x (List.mem_cons_of_mem d hx)
    have hval : digitsValFrom a (d :: t) = digitsValFrom (digitStep a d) t := by
      simp [digitsValFrom, List.foldl]
    by_cases ho : MAX_HEADER_LENGTH < digitStep a d
    · simp [readLenLoop, hd, ho]
    · simp only [List.cons_append, readLenLoop, hd, if_true, ho, if_false]
      exact ih ht (by omega) (by rw [hval] at hb; exact hb)

theorem isDigitB_bounds {d : Nat} (h : isDigitB d = true) : 48 ≤ d ∧ d ≤ 57 := by
  simp [isDigitB] at h
  omega

/-- Reading a well-formed in-range length prefix succeeds. -/
theorem readLen_ok {ds rest : List Nat} (hne : ds ≠ [])
    (hds : ∀ d ∈ ds, isDigitB d = true)
    (hb : digitsVal ds ≤ MAX_HEADER_LENGTH) :
    readLen (ds ++ 58 :: rest) = .ok (digitsVal ds, rest) := by
  cases ds with
  | nil => exact absurd rfl hne
  | cons d t =>
    have hd : isDigitB d = true := hds d (List.mem_cons_self d t)
    have ht : ∀ x ∈ t, isDigitB x = true := fun x hx => hds x (List.mem_cons_of_mem d hx)
    have hval : digitsVal (d :: t) = digitsValFrom (d - 48) t := by
      simp [digitsVal, digitsValFrom, List.foldl, digitStep]
    simp only [List.cons_append, readLen, hd, if_true]
    rw [hval]
    exact readLenLoop_ok ht (hval ▸ hb)

/-- A declared length over the bound makes the whole parse fail with the
range error before a single payload byte is consumed, with no environment
entry applied. -/
theorem parse_overflow {ds rest : List Nat} (hne : ds ≠ [])
    (hds : ∀ d ∈ ds, isDigitB d = true)
    (hb : MAX_HEADER_LENGTH < digitsVal ds) :
    parseScgi (ds ++ rest) = .err .lengthTooBig [] := by
  cases ds with
  | nil => exact absurd rfl hne
  | cons d t =>
    have hd : isDigitB d = true := hds d (List.mem_cons_self d t)
    have ht : ∀ x ∈ t, isDigitB x = true := fun x hx => hds x (List.mem_cons_of_mem d hx)
    have hval : digitsVal (d :: t) = digitsValFrom (d - 48) t := by
      simp [digitsVal, digitsValFrom, List.foldl, digitStep]
    have hd48 := isDigitB_bounds hd
    unfold parseScgi
    simp only [List.cons_append, readLen, hd, if_true]
    rw [readLenLoop_overflow ht (by unfold MAX_HEADER_LENGTH; omega)
      (by rw [← hval]; exact hb)]

theorem encodePairs_cons (q : List Nat × List Nat) (t : List (List Nat × List Nat)) :
    encodePairs (q :: t) = encodePair q ++ encodePairs t := by
  simp [encodePairs]

theorem encodePair_length (q : List Nat × List Nat) :
    (encodePair q).length = q.1.length + q.2.length + 2 := by
  simp [encodePair]
  omega

/-- Walking a well-formed even table from position `p` succeeds and yields
exactly the encoded pairs, in input order. -/
theorem walk_encode (ps : List (List Nat × List Nat)) :
    ∀ (buf : List Nat) (p : Nat) (sfx : List Nat), NulFreePairs ps →
    buf.drop p = encodePairs ps ++ sfx →
    walk buf (p + (encodePairs ps).length) p = .done ps := by
  induction ps with
  | nil =>
    intro buf p sfx _ _
    have : ¬ p < p + (encodePairs ([] : List (List Nat × List Nat))).length := by
      simp [encodePairs]
    exact walk_stop this
  | cons q t ih =>
    intro buf p sfx hnf hd
    have hq : (∀ b ∈ q.1, b ≠ 0) ∧ (∀ b ∈ q.2, b ≠ 0) :=
      hnf q (List.mem_cons_self q t)
    have ht : NulFreePairs t := fun r hr => hnf r (List.mem_cons_of_mem q hr)
    have hd' : buf.drop p = q.1 ++ 0 :: (q.2 ++ 0 :: (encodePairs t ++ sfx)) := by
      rw [hd, encodePairs_cons]
      simp [encodePair]
    set len := p + (encodePairs (q :: t)).length with hlen
    have hlen' : len = p + q.1.length + q.2.length + 2 + (encodePairs t).length := by
      rw [hlen, encodePairs_cons]
      simp [encodePair_length]
      omega
    have hplt : p < len := by omega
    have hn : findNul buf p = some (p + q.1.length) := findNul_at hd' hq.1
    have hv : ¬ len ≤ (p + q.1.length) + 1 := by omega
    have hdrop1 : buf.drop (p + q.1.length + 1) = q.2 ++ 0 :: (encodePairs t ++ sfx) := by
      have h1 : p + q.1.length + 1 = p + (q.1.length + 1) := by omega
      rw [h1, ← List.drop_drop, hd']
      have h2 : q.1 ++ 0 :: (q.2 ++ 0 :: (encodePairs t ++ sfx)) =
          (q.1 ++ [0]) ++ (q.2 ++ 0 :: (encodePairs t ++ sfx)) := by simp
      rw [h2, List.drop_left' (by simp)]
    have hm : findNul buf (p + q.1.length + 1) =
        some ((p + q.1.length + 1) + q.2.length) := findNul_at hdrop1 hq.2
    have hdrop2 : buf.drop ((p + q.1.length + 1) + q.2.length + 1) =
        encodePairs t ++ sfx := by
      have h1 : (p + q.1.length + 1) + q.2.length + 1 =
          (p + q.1.length + 1) + (q.2.length + 1) := by omega
      rw [h1, ← List.drop_drop, hdrop1]
      have h2 : q.2 ++ 0 :: (encodePairs t ++ sfx) =
          (q.2 ++ [0]) ++ (encodePairs t ++ sfx) := by simp
      rw [h2, List.drop_left' (by simp)]
    have hrec : walk buf len ((p + q.1.length + 1) + q.2.length + 1) = .done t := by
      have h1 : len = ((p + q.1.length + 1) + q.2.length + 1) + (encodePairs t).length := by
        omega
      rw [h1]
      exact ih buf _ sfx ht hdrop2
    have hname : extract buf p (p + q.1.length) = q.1 := by
      unfold extract
      rw [hd']
      have h1 : p + q.1.length - p = q.1.length := by omega
      rw [h1]
      have h2 : q.1 ++ 0 :: (q.2 ++ 0 :: (encodePairs t ++ sfx)) =
          q.1 ++ (0 :: (q.2 ++ 0 :: (encodePairs t ++ sfx))) := rfl
      rw [h2, List.take_left]
    have hvalue : extract buf (p + q.1.length + 1) ((p + q.1.length + 1) + q.2.length) =
        q.2 := by
      unfold extract
      rw [hdrop1]
      have h1 : (p + q.1.length + 1) + q.2.length - (p + q.1.length + 1) = q.2.length := by
        omega
      rw [h1]
      have h2 : q.2 ++ 0 :: (encodePairs t ++ sfx) =
          q.2 ++ (0 :: (encodePairs t ++ sfx)) := rfl
      rw [h2, List.take_left]
    have hn2 : ¬ len ≤ p + q.1.length + 1 := hv
    rw [walk_step hplt hn hn2 hm]
    have h3 : (p + q.1.length + 1) + q.2.length + 1 =
        ((p + q.1.length + 1) + q.2.length) + 1 := by omega
    rw [← h3] at hrec
    rw [hrec]
    simp [hname, hvalue]

/-- Walking a table that ends in one unpaired NUL-terminated run hits the
"Corrupt name/value table" check: the last run is consumed as a name and its
value's computed start position lands exactly at the end of the region. -/
theorem walk_encode_odd (ps : List (List Nat × List Nat)) :
    ∀ (s : List Nat) (buf : List Nat) (p : Nat) (sfx : List Nat), NulFreePairs ps →
    (∀ b ∈ s, b ≠ 0) →
    buf.drop p = encodePairs ps ++ (s ++ [0]) ++ sfx →
    ∃ ap, walk buf (p + (encodePairs ps).length + s.length + 1) p = .corrupt ap := by
  induction ps with
  | nil =>
    intro s buf p sfx _ hs hd
    have hd' : buf.drop p = s ++ 0 :: sfx := by
      rw [hd]
      simp [encodePairs]
    have hn : findNul buf p = some (p + s.length) := findNul_at hd' hs
    refine ⟨[], ?_⟩
    have hlen : p + (encodePairs ([] : List (List Nat × List Nat))).length + s.length + 1 =
        p + s.length + 1 := by simp [encodePairs]
    rw [hlen]
    exact walk_corrupt_here (by omega) hn (by omega)
  | cons q t ih =>
    intro s buf p sfx hnf hs hd
    have hq : (∀ b ∈ q.1, b ≠ 0) ∧ (∀ b ∈ q.2, b ≠ 0) :=
      hnf q (List.mem_cons_self q t)
    have ht : NulFreePairs t := fun r hr => hnf r (List.mem_cons_of_mem q hr)
    have hd' : buf.drop p =
        q.1 ++ 0 :: (q.2 ++ 0 :: ((encodePairs t ++ (s ++ [0]) ++ sfx))) := by
      rw [hd, encodePairs_cons]
      simp [encodePair]
    set len := p + (encodePairs (q :: t)).length + s.length + 1 with hlen
    have hlen' : len = p + q.1.length + q.2.length + 2 + (encodePairs t).length
        + s.length + 1 := by
      rw [hlen, encodePairs_cons]
      simp [encodePair_length]
      omega
    have hplt : p < len := by omega
    have hn : findNul buf p = some (p + q.1.length) := findNul_at hd' hq.1
    have hv : ¬ len ≤ (p + q.1.length) + 1 := by omega
    have hdrop1 : buf.drop (p + q.1.length + 1) =
        q.2 ++ 0 :: (encodePairs t ++ (s ++ [0]) ++ sfx) := by
      have h1 : p + q.1.length + 1 = p + (q.1.length + 1) := by omega
      rw [h1, ← List.drop_drop, hd']
      have h2 : q.1 ++ 0 :: (q.2 ++ 0 :: (encodePairs t ++ (s ++ [0]) ++ sfx)) =
          (q.1 ++ [0]) ++ (q.2 ++ 0 :: (encodePairs t ++ (s ++ [0]) ++ sfx)) := by simp
      rw [h2, List.drop_left' (by simp)]
    have hm : findNul buf (p + q.1.length + 1) =
        some ((p + q.1.length + 1) + q.2.length) := findNul_at hdrop1 hq.2
    have hdrop2 : buf.drop ((p + q.1.length + 1) + q.2.length + 1) =
        encodePairs t ++ (s ++ [0]) ++ sfx := by
      have h1 : (p + q.1.length + 1) + q.2.length + 1 =
          (p + q.1.length + 1) + (q.2.length + 1) := by omega
      rw [h1, ← List.drop_drop, hdrop1]
      have h2 : q.2 ++ 0 :: (encodePairs t ++ (s ++ [0]) ++ sfx) =
          (q.2 ++ [0]) ++ (encodePairs t ++ (s ++ [0]) ++ sfx) := by simp
      rw [h2, List.drop_left' (by simp)]
    obtain ⟨ap, hap⟩ := ih s buf ((p + q.1.length + 1) + q.2.length + 1) sfx ht hs hdrop2
    have h1 : len = ((p + q.1.length + 1) + q.2.length + 1) + (encodePairs t).length
        + s.length + 1 := by omega
    refine ⟨(extract buf p (p + q.1.length),
      extract buf (p + q.1.length + 1) ((p + q.1.length + 1) + q.2.length)) :: ap, ?_⟩
    rw [walk_step hplt hn hv hm]
    rw [← h1] at hap
    rw [hap]

theorem getD_append_len (l : List Nat) (x : Nat) (d : Nat) :
    (l ++ [x]).getD l.length d = x := by
  induction l with
  | nil => rfl
  | cons a t ih => simpa [List.getD] using ih

theorem encodePairs_eq_nil {ps : List (List Nat × List Nat)}
    (h : (encodePairs ps).length = 0) : ps = [] := by
  cases ps with
  | nil => rfl
  | cons q t =>
    exfalso
    rw [encodePairs_cons] at h
    simp [encodePair_length] at h

/-- The full parse of a well-formed, in-range, even header block: success,
the pairs in input order, the trailing `,` consumed, the body untouched. -/
theorem parseScgi_encode {ds : List Nat} {ps : List (List Nat × List Nat)}
    {rest : List Nat} (hne : ds ≠ [])
    (hds : ∀ d ∈ ds, isDigitB d = true) (hnf : NulFreePairs ps)
    (hlen : digitsVal ds = (encodePairs ps).length)
    (hb : digitsVal ds ≤ MAX_HEADER_LENGTH) :
    parseScgi (ds ++ 58 :: (encodePairs ps ++ 44 :: rest)) = .ok ps rest := by
  have hstep : parseScgi (ds ++ 58 :: (encodePairs ps ++ 44 :: rest)) =
      parseBlock (encodePairs ps).length (encodePairs ps ++ 44 :: rest) := by
    unfold parseScgi
    rw [readLen_ok hne hds hb, hlen]
  rw [hstep]
  have hsplit : encodePairs ps ++ 44 :: rest = (encodePairs ps ++ [44]) ++ rest := by simp
  have hlen1 : (encodePairs ps ++ [44]).length = (encodePairs ps).length + 1 := by simp
  have hnotlt : ¬ ((encodePairs ps ++ 44 :: rest).length < (encodePairs ps).length + 1) := by
    simp
  have htake : (encodePairs ps ++ 44 :: rest).take ((encodePairs ps).length + 1) =
      encodePairs ps ++ [44] := by
    rw [hsplit, List.take_left' hlen1]
  have hdrop : (encodePairs ps ++ 44 :: rest).drop ((encodePairs ps).length + 1) =
      rest := by
    rw [hsplit, List.drop_left' hlen1]
  have hcomma : (encodePairs ps ++ [44]).getD (encodePairs ps).length 0 = 44 :=
    getD_append_len _ _ _
  unfold parseBlock
  simp only [if_neg hnotlt, htake, hdrop, hcomma, ne_eq, not_true_eq_false, if_false,
    ite_false]
  by_cases h0 : (encodePairs ps).length = 0
  · rw [if_pos h0, encodePairs_eq_nil h0]
  · rw [if_neg h0]
    have hw : walk (encodePairs ps ++ [44]) (0 + (encodePairs ps).length) 0 = .done ps :=
      walk_encode ps (encodePairs ps ++ [44]) 0 [44] hnf (by simp)
    rw [Nat.zero_add] at hw
    rw [hw]

/-- Pairing up an odd-length run list: all but the last run pair off. -/
theorem odd_runs_decomp (rs : List (List Nat)) (h : rs.length % 2 = 1) :
    ∃ (ps : List (List Nat × List Nat)) (s : List Nat),
      (rs.map (fun r => r ++ [0])).flatten = encodePairs ps ++ (s ++ [0]) ∧
      (∀ q ∈ ps, q.1 ∈ rs ∧ q.2 ∈ rs) ∧ s ∈ rs := by
  match rs with
  | [] => simp at h
  | [s] =>
    refine ⟨[], s, ?_, by simp, by simp⟩
    simp [encodePairs]
  | a :: b :: t =>
    have ht : t.length % 2 = 1 := by
      simp only [List.length_cons] at h
      omega
    obtain ⟨ps, s, h1, h2, h3⟩ := odd_runs_decomp t ht
    refine ⟨(a, b) :: ps, s, ?_, ?_, ?_⟩
    · rw [encodePairs_cons]
      simp only [List.map_cons, List.flatten_cons, h1]
      simp [encodePair]
    · intro q hq
      rcases List.mem_cons.mp hq with h | h
      · subst h
        exact ⟨List.mem_cons_self _ _, List.mem_cons_of_mem _ (List.mem_cons_self _ _)⟩
      · have := h2 q h
        exact ⟨List.mem_cons_of_mem _ (List.mem_cons_of_mem _ this.1),
          List.mem_cons_of_mem _ (List.mem_cons_of_mem _ this.2)⟩
    · exact List.mem_cons_of_mem _ (List.mem_cons_of_mem _ h3)

/-- The full parse of a well-formed, in-range block holding an odd number of
complete NUL-terminated runs: the "Corrupt name/value table" error. -/
theorem parseScgi_odd {ds : List Nat} {rs : List (List Nat)} {rest : List Nat}
    (hne : ds ≠ []) (hds : ∀ d ∈ ds, isDigitB d = true)
    (hodd : rs.length % 2 = 1) (hnf : ∀ r ∈ rs, ∀ b ∈ r, b ≠ 0)
    (hlen : digitsVal ds = ((rs.map (fun r => r ++ [0])).flatten).length)
    (hb : digitsVal ds ≤ MAX_HEADER_LENGTH) :
    ∃ ap, parseScgi
      (ds ++ 58 :: ((rs.map (fun r => r ++ [0])).flatten ++ 44 :: rest)) =
      .err .corruptTable ap := by
  obtain ⟨ps, s, h1, h2, h3⟩ := odd_runs_decomp rs hodd
  have hpnf : NulFreePairs ps := by
    intro q hq
    exact ⟨hnf q.1 (h2 q hq).1, hnf q.2 (h2 q hq).2⟩
  have hsnf : ∀ b ∈ s, b ≠ 0 := hnf s h3
  set payload := (rs.map (fun r => r ++ [0])).flatten with hpay
  have hplen : payload.length = (encodePairs ps).length + s.length + 1 := by
    rw [h1]
    simp only [List.length_append, List.length_cons, List.length_nil]
    omega
  have hstep : parseScgi (ds ++ 58 :: (payload ++ 44 :: rest)) =
      parseBlock payload.length (payload ++ 44 :: rest) := by
    unfold parseScgi
    rw [readLen_ok hne hds hb, hlen]
  rw [hstep]
  have hsplit : payload ++ 44 :: rest = (payload ++ [44]) ++ rest := by simp
  have hlen1 : (payload ++ [44]).length = payload.length + 1 := by simp
  have hnotlt : ¬ ((payload ++ 44 :: rest).length < payload.length + 1) := by simp
  have htake : (payload ++ 44 :: rest).take (payload.length + 1) = payload ++ [44] := by
    rw [hsplit, List.take_left' hlen1]
  have hcomma : (payload ++ [44]).getD payload.length 0 = 44 := getD_append_len _ _ _
  have h0 : ¬ payload.length = 0 := by omega
  unfold parseBlock
  simp only [if_neg hnotlt, htake, hcomma, ne_eq, not_true_eq_false, if_false,
    ite_false, if_neg h0]
  have hdrop0 : (payload ++ [44]).drop 0 = encodePairs ps ++ (s ++ [0]) ++ [44] := by
    rw [List.drop_zero, h1]
  obtain ⟨ap, hap⟩ := walk_encode_odd ps s (payload ++ [44]) 0 [44] hpnf hsnf hdrop0
  have hlw : 0 + (encodePairs ps).length + s.length + 1 = payload.length := by omega
  rw [hlw] at hap
  rw [hap]
  exact ⟨ap, rfl⟩

/-- After a well-formed length prefix, the parse is `parseBlock` on what
follows the `:`. -/
theorem parseScgi_colon {ds rest : List Nat} (hne : ds ≠ [])
    (hds : ∀ d ∈ ds, isDigitB d = true) (hb : digitsVal ds ≤ MAX_HEADER_LENGTH) :
    parseScgi (ds ++ 58 :: rest) = parseBlock (digitsVal ds) rest := by
  unfold parseScgi
  rw [readLen_ok hne hds hb]

theorem parseBlock_truncated {len : Nat} {rest : List Nat}
    (h : rest.length < len + 1) : parseBlock len rest = .err .headerTruncated [] := by
  unfold parseBlock
  rw [if_pos h]

/-- `parseBlock` consumes exactly the first `len+1` bytes after the colon:
its behaviour on `buf ++ extra` (with `buf` of size `len+1`) is its behaviour
on `buf` alone, with `extra` left as the unread remainder. -/
theorem parseBlock_consumes {len : Nat} {buf extra : List Nat}
    (hb : buf.length = len + 1) :
    parseBlock len (buf ++ extra) =
      match parseBlock len buf with
      | .ok ps _ => .ok ps extra
      | r => r := by
  have hnotlt1 : ¬ ((buf ++ extra).length < len + 1) := by
    simp [hb]
  have hnotlt2 : ¬ (buf.length < len + 1) := by omega
  have htake1 : (buf ++ extra).take (len + 1) = buf := List.take_left' hb
  have htake2 : buf.take (len + 1) = buf := by
    rw [← hb]
    exact List.take_length buf
  have hdrop1 : (buf ++ extra).drop (len + 1) = extra := List.drop_left' hb
  unfold parseBlock
  simp only [if_neg hnotlt1, if_neg hnotlt2, htake1, htake2, hdrop1]
  by_cases hc : buf.getD len 0 = 44
  · simp only [hc, ne_eq, not_true_eq_false, if_false, ite_false]
    by_cases h0 : len = 0
    · simp [h0]
    · simp only [if_neg h0]
      cases hw : walk buf len 0 <;> simp
  · have hc2 : ¬ (buf[len]?.getD 0 = 44) := by
      simpa [List.getD_eq_getElem?_getD] using hc
    simp [hc2]

/-- A buffer whose byte at offset `len` is not the `,` delimiter is rejected
as an incomplete netstring. -/
theorem parseBlock_badcomma {len : Nat} {buf extra : List Nat}
    (hb : buf.length = len + 1) (hc : buf.getD len 0 ≠ 44) :
    parseBlock len (buf ++ extra) = .err .missingComma [] := by
  have hnotlt1 : ¬ ((buf ++ extra).length < len + 1) := by simp [hb]
  have htake1 : (buf ++ extra).take (len + 1) = buf := List.take_left' hb
  unfold parseBlock
  simp only [if_neg hnotlt1, htake1, hc, ne_eq, not_false_eq_true, if_true, ite_true]

theorem setenvF_apply (e : EnvF) (n v m : List Nat) :
    setenvF e n v m = if m = n then some v else e m := rfl

theorem unsetenvF_apply (e : EnvF) (n m : List Nat) :
    unsetenvF e n m = if m = n then none else e m := rfl

theorem lastVal_shift (n : List Nat) (ps : List (List Nat × List Nat)) :
    ∀ init : Option (List Nat),
    List.foldl (fun acc q => if q.1 = n then some q.2 else acc) init ps =
      match lastVal ps n with
      | some v => some v
      | none => init := by
  induction ps with
  | nil => intro init; simp [lastVal]
  | cons q t ih =>
    intro init
    have hl : lastVal (q :: t) n =
        List.foldl (fun acc r => if r.1 = n then some r.2 else acc)
          (if q.1 = n then some q.2 else none) t := by
      simp [lastVal, List.foldl]
    rw [hl, List.foldl_cons, ih, ih]
    cases hlv : lastVal t n with
    | some v => rfl
    | none =>
      by_cases hq : q.1 = n <;> simp [hq]

/-- What `getenv` sees after `setenv`-ing the parsed pairs in input order over
an ambient environment: the LAST pair of a given name wins; names the header
never mentions keep their ambient binding. -/
theorem applyPairs_apply (ps : List (List Nat × List Nat)) :
    ∀ (e : EnvF) (n : List Nat),
    applyPairs e ps n =
      match lastVal ps n with
      | some v => some v
      | none => e n := by
  induction ps with
  | nil => intro e n; simp [applyPairs, lastVal]
  | cons q t ih =>
    intro e n
    have h1 : applyPairs e (q :: t) = applyPairs (setenvF e q.1 q.2) t := by
      simp [applyPairs, List.foldl]
    rw [h1, ih]
    have hl : lastVal (q :: t) n =
        List.foldl (fun acc r => if r.1 = n then some r.2 else acc)
          (if q.1 = n then some q.2 else none) t := by
      simp [lastVal, List.foldl]
    rw [hl, lastVal_shift]
    cases hlv : lastVal t n with
    | some v => rfl
    | none =>
      by_cases hq : q.1 = n
      · simp [hq, setenvF_apply]
      · simp [hq, setenvF_apply]
        intro h
        exact absurd h.symm hq

/-- `List.isPrefixOf` on byte strings is the literal begins-with relation
(what `strncmp(d, s, strlen(d)) == 0` computes for NUL-free `d`). -/
theorem isPrefixOf_spec (pat : List Nat) (s : List Nat) :
    pat.isPrefixOf s = true ↔ ∃ w, s = pat ++ w := by
  induction pat generalizing s with
  | nil =>
    constructor
    · intro _; exact ⟨s, rfl⟩
    · intro _; cases s <;> rfl
  | cons a t ih =>
    cases s with
    | nil =>
      constructor
      · intro h; simp [List.isPrefixOf] at h
      · rintro ⟨w, hw⟩; cases hw
    | cons b u =>
      simp only [List.isPrefixOf, Bool.and_eq_true, beq_iff_eq]
      constructor
      · rintro ⟨h1, h2⟩
        obtain ⟨w, hw⟩ := (ih u).mp h2
        subst h1
        exact ⟨w, by rw [hw]; rfl⟩
      · rintro ⟨w, hw⟩
        injection hw with h1 h2
        exact ⟨h1.symm, (ih u).mpr ⟨w, h2⟩⟩

/-- `containsSub` is exactly substring occurrence: what
`strstr(s, pat) != NULL` computes on NUL-free byte strings. -/
theorem containsSub_spec (pat : List Nat) : ∀ s : List Nat,
    containsSub pat s = true ↔ ∃ u w, s = u ++ pat ++ w := by
  intro s
  induction s with
  | nil =>
    unfold containsSub
    by_cases hp : pat.isPrefixOf ([] : List Nat) = true
    · simp only [hp, if_true, true_iff]
      obtain ⟨w, hw⟩ := (isPrefixOf_spec pat []).mp hp
      exact ⟨[], w, by simpa using hw⟩
    · simp only [hp, if_false, Bool.false_eq_true, false_iff]
      rintro ⟨u, w, hw⟩
      apply hp
      apply (isPrefixOf_spec pat []).mpr
      cases u with
      | nil => exact ⟨w, by simpa using hw⟩
      | cons c v => cases hw
  | cons b u ih =>
    unfold containsSub
    by_cases hp : pat.isPrefixOf (b :: u) = true
    · simp only [hp, if_true, true_iff]
      obtain ⟨w, hw⟩ := (isPrefixOf_spec pat (b :: u)).mp hp
      exact ⟨[], w, by simpa using hw⟩
    · simp only [hp, Bool.false_eq_true, if_false]
      rw [ih]
      constructor
      · rintro ⟨v, w, hw⟩
        exact ⟨b :: v, w, by rw [hw]; rfl⟩
      · rintro ⟨v, w, hw⟩
        cases v with
        | nil =>
          exfalso
          apply hp
          apply (isPrefixOf_spec pat (b :: u)).mpr
          exact ⟨w, by simpa using hw⟩
        | cons c v2 =>
          injection hw with h1 h2
          exact ⟨v2, w, h2⟩

theorem getD_drop (l : List Nat) : ∀ (p i d : Nat),
    (l.drop p).getD i d = l.getD (p + i) d := by
  induction l with
  | nil => intro p i d; simp
  | cons a t ih =>
    intro p i d
    cases p with
    | zero => simp
    | succ p2 =>
      have h1 : (a :: t).drop (p2 + 1) = t.drop p2 := rfl
      have h2 : p2 + 1 + i = (p2 + i) + 1 := by omega
      rw [h1, ih p2 i d, h2]
      rfl

theorem findNulAux_some_le (l : List Nat) : ∀ i : Nat, i < l.length →
    l.getD i 1 = 0 → ∃ j, findNulAux l = some j ∧ j ≤ i := by
  induction l with
  | nil => intro i hi; simp at hi
  | cons a t ih =>
    intro i hi h0
    by_cases ha : a = 0
    · exact ⟨0, by simp [findNulAux, ha], by omega⟩
    · cases i with
      | zero =>
        exfalso
        simp [List.getD] at h0
        exact ha h0
      | succ i2 =>
        have hi2 : i2 < t.length := by simp at hi; omega
        have h02 : t.getD i2 1 = 0 := by simpa [List.getD] using h0
        obtain ⟨j, hj, hji⟩ := ih i2 hi2 h02
        exact ⟨j + 1, by simp [findNulAux, ha, hj], by omega⟩

/-- When the final payload byte (offset `len - 1`) is NUL, every `strlen`
scan that starts inside the payload finds its NUL inside the payload: no
byte at or beyond offset `len` is ever examined. -/
theorem findNul_contained {buf : List Nat} {len p : Nat}
    (hlen : buf.length = len + 1) (h0 : 0 < len)
    (hnul : buf.getD (len - 1) 1 = 0) (hp : p < len) :
    ∃ q, findNul buf p = some q ∧ q < len := by
  have hdl : (buf.drop p).length = len + 1 - p := by simp [hlen]
  have hi : len - 1 - p < (buf.drop p).length := by omega
  have hg : (buf.drop p).getD (len - 1 - p) 1 = 0 := by
    rw [getD_drop]
    have : p + (len - 1 - p) = len - 1 := by omega
    rw [this]
    exact hnul
  obtain ⟨j, hj, hji⟩ := findNulAux_some_le (buf.drop p) (len - 1 - p) hi hg
  refine ⟨p + j, ?_, by omega⟩
  unfold findNul
  rw [hj]
  rfl

theorem encodePairs_replicate_len (n : Nat) :
    (encodePairs (List.replicate n (([] : List Nat), ([] : List Nat)))).length = 2 * n := by
  induction n with
  | zero => rfl
  | succ m ih =>
    rw [List.replicate_succ, encodePairs_cons, List.length_append, ih, encodePair_length]
    simp
    omega

/-- 131073 pairs of empty strings: an even number (262146) of complete
NUL-terminated strings, of total length 262146 > MAX_HEADER_LENGTH. -/
def bigPairs : List (List Nat × List Nat) := List.replicate 131073 ([], [])

/-- The netstring `262146:<encoded bigPairs>,`: an input stream of the claimed
form whose declared length exceeds the configured maximum. -/
def bigStream : List Nat :=
  [50, 54, 50, 49, 52, 54] ++ 58 :: (encodePairs bigPairs ++ 44 :: [])

/-- Claim C1, counterexample: `bigStream` is `<L>:<payload>,` with the payload
exactly L bytes forming an even number of complete NUL-terminated strings
(the encoding of `bigPairs`), yet header parsing does not succeed: L = 262146
exceeds `MAX_HEADER_LENGTH`, so the parse stops with the range error (and no
pair is applied).  The claim as stated, which has no bound on L, is false. -/
theorem C1_counterexample :
    digitsVal [50, 54, 50, 49, 52, 54] = (encodePairs bigPairs).length ∧
    NulFreePairs bigPairs ∧
    parseScgi bigStream = .err .lengthTooBig [] := by
  have hlen : (encodePairs bigPairs).length = 262146 := by
    unfold bigPairs
    rw [encodePairs_replicate_len]
  have hdv : digitsVal [50, 54, 50, 49, 52, 54] = 262146 := by decide
  refine ⟨by rw [hdv, hlen], ?_, ?_⟩
  · intro q hq
    have := List.eq_of_mem_replicate hq
    subst this
    simp
  · unfold bigStream
    exact parse_overflow (by decide) (by decide) (by rw [hdv]; decide)

/-- Claim C1 (amended with the length bound the counterexample forces): for
every input stream `<L>:<payload>,⋯` whose digit prefix encodes
L ≤ MAX_HEADER_LENGTH and whose payload is exactly L bytes forming an even
number of complete NUL-terminated strings — the encoding of pairs `ps` —
header parsing succeeds and produces exactly `ps`, in input order; and
`setenv`-ing those pairs over any ambient environment is last-write-wins:
a name's final binding is the value of its last pair, and names the header
never mentions keep their ambient binding. -/
theorem C1_even_block_parses (ds : List Nat) (ps : List (List Nat × List Nat))
    (rest : List Nat) (e : EnvF) (hne : ds ≠ [])
    (hds : ∀ d ∈ ds, isDigitB d = true) (hnf : NulFreePairs ps)
    (hlen : digitsVal ds = (encodePairs ps).length)
    (hb : digitsVal ds ≤ MAX_HEADER_LENGTH) :
    parseScgi (ds ++ 58 :: (encodePairs ps ++ 44 :: rest)) = .ok ps rest ∧
    ∀ n, applyPairs e ps n =
      match lastVal ps n with
      | some v => some v
      | none => e n :=
  ⟨parseScgi_encode hne hds hnf hlen hb, fun n => applyPairs_apply ps e n⟩

/-- Witness for C1: the concrete stream `4:A<NUL>B<NUL>,` parses to the single
pair (A, B). -/
theorem C1_witness :
    parseScgi ([52] ++ 58 :: (encodePairs [([65], [66])] ++ 44 :: [])) =
      .ok [([65], [66])] [] :=
  (C1_even_block_parses [52] [([65], [66])] [] (fun _ => none) (by decide)
    (by decide) (by decide) (by decide) (by decide)).1

/-- Claim C3: the walk fails with the "Corrupt name/value table" error
whenever a value's computed start position is at or past the end of the
L-byte region; in particular every payload consisting of an odd number of
complete NUL-terminated runs is rejected by this check (the final run is
consumed as a name and its value's start position lands at the end). -/
theorem C3_odd_rejected :
    (∀ (buf : List Nat) (len p n1 : Nat),
      p < len → findNul buf p = some n1 → len ≤ n1 + 1 →
      walk buf len p = .corrupt []) ∧
    (∀ (ds : List Nat) (rs : List (List Nat)) (rest : List Nat),
      ds ≠ [] → (∀ d ∈ ds, isDigitB d = true) →
      rs.length % 2 = 1 → (∀ r ∈ rs, ∀ b ∈ r, b ≠ 0) →
      digitsVal ds = ((rs.map (fun r => r ++ [0])).flatten).length →
      digitsVal ds ≤ MAX_HEADER_LENGTH →
      ∃ ap, parseScgi (ds ++ 58 :: ((rs.map (fun r => r ++ [0])).flatten ++ 44 :: rest)) =
        .err .corruptTable ap) :=
  ⟨fun _ _ _ _ h hn hv => walk_corrupt_here h hn hv,
   fun _ _ _ hne hds hodd hnf hlen hb => parseScgi_odd hne hds hodd hnf hlen hb⟩

/-- Witness for C3: the stream `2:a<NUL>,` — one complete run, an odd count —
is rejected with the corrupt-table error. -/
theorem C3_witness :
    ∃ ap, parseScgi ([50] ++ 58 :: (([[97]].map (fun r => r ++ [0])).flatten ++ 44 :: [])) =
      .err .corruptTable ap :=
  C3_odd_rejected.2 [50] [[97]] [] (by decide) (by decide) (by decide) (by decide)
    (by decide) (by decide)

/-- Claim C4: for every declared length exceeding `MAX_HEADER_LENGTH`, the
parse fails with the range error while still reading the digit string —
before any payload byte is consumed (the result is the same for every
possible remainder `rest` of the stream) — and with no environment entry
applied (the error's applied-pair list is empty). -/
theorem C4_length_over_max (ds rest : List Nat) (hne : ds ≠ [])
    (hds : ∀ d ∈ ds, isDigitB d = true)
    (hover : MAX_HEADER_LENGTH < digitsVal ds) :
    parseScgi (ds ++ rest) = .err .lengthTooBig [] :=
  parse_overflow hne hds hover

/-- Witness for C4: declared length 262145 (one over the maximum) is rejected
regardless of what follows. -/
theorem C4_witness :
    parseScgi ([50, 54, 50, 49, 52, 53] ++ [58, 44]) = .err .lengthTooBig [] :=
  C4_length_over_max [50, 54, 50, 49, 52, 53] [58, 44] (by decide) (by decide)
    (by decide)

/-- Claim C2: path validation rejects any handler path containing `../`
anywhere — even when a ContainmentPrefix is configured and satisfied — and,
when a ContainmentPrefix is configured, also rejects unless the path begins
with it as a literal byte sequence; a path passing both checks reaches
dispatch (`execve`), shown by the pipeline replacing the image when the
`execve` oracle succeeds. -/
theorem C2_path_validation :
    (∀ (script : List Nat) (cd : Option (List Nat)),
      (∃ u w, script = u ++ dotdotslash ++ w) →
      checkPath script cd =
        some ("500 Internal Error", "SCRIPT_FILENAME should not include \"../\"")) ∧
    (∀ (script d : List Nat),
      ¬ (∃ u w, script = u ++ dotdotslash ++ w) →
      ¬ (∃ w, script = d ++ w) →
      checkPath script (some d) =
        some ("500 Internal Error",
          "[" ++ bytesToStr script ++ "] doesn't reside under [" ++ bytesToStr d ++ "]")) ∧
    (∀ (script : List Nat) (cd : Option (List Nat)),
      ¬ (∃ u w, script = u ++ dotdotslash ++ w) →
      (cd = none ∨ ∃ d, cd = some d ∧ ∃ w, script = d ++ w) →
      checkPath script cd = none) ∧
    (∀ (stdin : List Nat) (argvTail : List (List Nat)) (e : EnvF)
      (ps : List (List Nat × List Nat)) (rem script : List Nat)
      (cd : Option (List Nat)) (args : List (List Nat)),
      parseScgi stdin = .ok ps rem →
      resolveScript (effEnv e ps nmSCRIPT_FILENAME) argvTail = .resolved script cd args →
      checkPath script cd = none →
      mainRun stdin argvTail e (fun _ _ _ => none) = .replaced script args (effEnv e ps)) := by
  refine ⟨?_, ?_, ?_, ?_⟩
  · intro script cd hsub
    have hc : containsSub dotdotslash script = true := (containsSub_spec _ _).mpr hsub
    unfold checkPath
    rw [if_pos hc]
  · intro script d hsub hpre
    have hc : ¬ containsSub dotdotslash script = true := fun h =>
      hsub ((containsSub_spec _ _).mp h)
    have hp : ¬ d.isPrefixOf script = true := fun h =>
      hpre ((isPrefixOf_spec _ _).mp h)
    unfold checkPath
    rw [if_neg (by simpa using hc)]
    simp [hp]
  · intro script cd hsub hcd
    have hc : ¬ containsSub dotdotslash script = true := fun h =>
      hsub ((containsSub_spec _ _).mp h)
    unfold checkPath
    rw [if_neg (by simpa using hc)]
    rcases hcd with h | ⟨d, hd, hw⟩
    · rw [h]
    · rw [hd]
      simp [(isPrefixOf_spec d script).mpr hw]
  · intro stdin argvTail e ps rem script cd args hparse hres hcheck
    simp only [mainRun, hparse, hres, hcheck]

/-- Witness for C2: `/a/../b` is rejected even under the satisfied
containment prefix `/a/`. -/
theorem C2_witness :
    checkPath (strBytes "/a/../b") (some (strBytes "/a/")) =
      some ("500 Internal Error", "SCRIPT_FILENAME should not include \"../\"") :=
  C2_path_validation.1 (strBytes "/a/../b") (some (strBytes "/a/"))
    ⟨strBytes "/a/", strBytes "b", by decide⟩

/-- Claim C5: resolution of the handler path.  With no command-line argument
the path is the header-supplied `SCRIPT_FILENAME`; a first argument ending in
the path separator `/` becomes the ContainmentPrefix while the path still
comes from the environment; any other first argument overrides the path and
all of `argv[1..]` become the handler's argument vector; and if no path
string results, the pipeline fails with the missing-SCRIPT_FILENAME
(ConfigError) response. -/
theorem C5_path_resolution :
    (resolveScript none [] = .noScript) ∧
    (∀ s, resolveScript (some s) [] = .resolved s none [s]) ∧
    (∀ (a : List Nat) rest, a ≠ [] → a.getLast? = some 47 →
      resolveScript none (a :: rest) = .noScript) ∧
    (∀ s (a : List Nat) rest, a ≠ [] → a.getLast? = some 47 →
      resolveScript (some s) (a :: rest) = .resolved s (some a) [s]) ∧
    (∀ envScript (a : List Nat) rest, a ≠ [] → a.getLast? ≠ some 47 →
      resolveScript envScript (a :: rest) = .resolved a none (a :: rest)) ∧
    (∀ (stdin : List Nat) (argvTail : List (List Nat)) (e : EnvF)
      (ps : List (List Nat × List Nat)) (rem : List Nat),
      parseScgi stdin = .ok ps rem →
      resolveScript (effEnv e ps nmSCRIPT_FILENAME) argvTail = .noScript →
      ∀ execR, mainRun stdin argvTail e execR =
        .failed (respFmt "500 Internal Error" "CGI environment missing SCRIPT_FILENAME") 1) := by
  refine ⟨rfl, fun s => rfl, ?_, ?_, ?_, ?_⟩
  · intro a rest ha hlast
    simp [resolveScript, ha, hlast]
  · intro s a rest ha hlast
    simp [resolveScript, ha, hlast]
  · intro envScript a rest ha hlast
    simp [resolveScript, ha, hlast]
  · intro stdin argvTail e ps rem hparse hres execR
    simp only [mainRun, hparse, hres, fail, return_error]

/-- Witness for C5: a first argument ending in `/` is captured as the
ContainmentPrefix while the handler path still comes from the environment. -/
theorem C5_witness :
    resolveScript (some (strBytes "/x/a.cgi")) [strBytes "/x/"] =
      .resolved (strBytes "/x/a.cgi") (some (strBytes "/x/")) [strBytes "/x/a.cgi"] :=
  C5_path_resolution.2.2.2.1 (strBytes "/x/a.cgi") (strBytes "/x/") [] (by decide)
    (by decide)

/-- Claim C7: after the `:` that ends the length prefix, the reader consumes
exactly L+1 bytes — its outcome on `buf ++ extra` (`buf` of size L+1) is its
outcome on `buf`, with `extra` the untouched remainder; it fails with the
truncation error when fewer than L+1 bytes are available, and with the
missing-comma error when byte L is not `,`. -/
theorem C7_reads_len_plus_one :
    (∀ ds rest, ds ≠ [] → (∀ d ∈ ds, isDigitB d = true) →
      digitsVal ds ≤ MAX_HEADER_LENGTH →
      parseScgi (ds ++ 58 :: rest) = parseBlock (digitsVal ds) rest) ∧
    (∀ (len : Nat) (rest : List Nat), rest.length < len + 1 →
      parseBlock len rest = .err .headerTruncated []) ∧
    (∀ (len : Nat) (buf extra : List Nat), buf.length = len + 1 →
      buf.getD len 0 ≠ 44 →
      parseBlock len (buf ++ extra) = .err .missingComma []) ∧
    (∀ (len : Nat) (buf extra : List Nat), buf.length = len + 1 →
      parseBlock len (buf ++ extra) =
        match parseBlock len buf with
        | .ok ps _ => .ok ps extra
        | r => r) :=
  ⟨fun _ _ hne hds hb => parseScgi_colon hne hds hb,
   fun _ _ h => parseBlock_truncated h,
   fun _ _ _ hb hc => parseBlock_badcomma hb hc,
   fun _ _ _ hb => parseBlock_consumes hb⟩

/-- Witness for C7: only one byte available where two are needed. -/
theorem C7_witness : parseBlock 1 [0] = .err .headerTruncated [] :=
  C7_reads_len_plus_one.2.1 1 [0] (by decide)

/-- Claim C8: the effective environment handed to the dispatcher.  Whatever
the header block contained, the protocol-selector marker `SCGI` is absent,
`GATEWAY_INTERFACE` is the fixed `CGI/1.1`, and every other header-supplied
name is bound to the value of its last pair (last-write-wins over any
ambient binding). -/
theorem C8_effective_env (e : EnvF) (ps : List (List Nat × List Nat)) :
    effEnv e ps nmSCGI = none ∧
    effEnv e ps nmGATEWAY_INTERFACE = some vCGI11 ∧
    ∀ n v, n ≠ nmSCGI → n ≠ nmGATEWAY_INTERFACE →
      lastVal ps n = some v → effEnv e ps n = some v := by
  have hne : nmSCGI ≠ nmGATEWAY_INTERFACE := by decide
  refine ⟨?_, ?_, ?_⟩
  · unfold effEnv
    rw [setenvF_apply, if_neg hne, unsetenvF_apply, if_pos rfl]
  · unfold effEnv
    rw [setenvF_apply, if_pos rfl]
  · intro n v hn1 hn2 hlast
    unfold effEnv
    rw [setenvF_apply, if_neg hn2, unsetenvF_apply, if_neg hn1, applyPairs_apply, hlast]

/-- Witness for C8: with ambient environment binding `SCGI` and a header pair
rebinding it, the marker is still absent, the compatibility marker is set,
and an ordinary name gets its last value. -/
theorem C8_witness :
    effEnv (fun n => if n = nmSCGI then some [49] else none)
      [(nmSCGI, [49]), ([88], [49]), ([88], [50])] nmSCGI = none ∧
    effEnv (fun n => if n = nmSCGI then some [49] else none)
      [(nmSCGI, [49]), ([88], [49]), ([88], [50])] nmGATEWAY_INTERFACE = some vCGI11 ∧
    effEnv (fun n => if n = nmSCGI then some [49] else none)
      [(nmSCGI, [49]), ([88], [49]), ([88], [50])] [88] = some [50] := by
  have h := C8_effective_env (fun n => if n = nmSCGI then some [49] else none)
    [(nmSCGI, [49]), ([88], [49]), ([88], [50])]
  exact ⟨h.1, h.2.1, h.2.2 [88] [50] (by decide) (by decide) (by decide)⟩

/-- Claim C9: during the name/value walk, every `strlen` scan that starts
inside the payload resolves inside the payload precisely under the
precondition that the final payload byte (offset L-1) is NUL; for the
concrete 3-byte payload `a<NUL>b` (final byte `b` ≠ NUL, buffer
`a<NUL>b,` of L+1 = 4 bytes), the scan for the value starting at offset 2
finds no NUL within the whole 4-byte allocation — it runs past offset L-1,
through the `,` at offset L, and beyond the buffer — and the walk ends in
the out-of-bounds outcome. -/
theorem C9_scan_containment :
    (∀ (buf : List Nat) (len p : Nat),
      buf.length = len + 1 → 0 < len → buf.getD (len - 1) 1 = 0 → p < len →
      ∃ q, findNul buf p = some q ∧ q < len) ∧
    ([97, 0, 98, 44].getD (3 - 1) 1 ≠ 0 ∧
     findNul [97, 0, 98, 44] 2 = none ∧
     walk [97, 0, 98, 44] 3 0 = .oob []) := by
  refine ⟨fun _ _ _ hlen h0 hnul hp => findNul_contained hlen h0 hnul hp, ?_, ?_, ?_⟩
  · decide
  · decide
  · exact @walk_oob_value [97, 0, 98, 44] 3 0 1 (by decide) (by decide) (by decide)
      (by decide)

/-- Witness for C9: in the buffer `<NUL>,` (L = 1, final payload byte NUL)
the scan from position 0 resolves inside the payload. -/
theorem C9_witness : ∃ q, findNul [0, 44] 0 = some q ∧ q < 1 :=
  C9_scan_containment.1 [0, 44] 1 0 (by decide) (by decide) (by decide) (by decide)

/-- Claim C10: the classification of the first command-line argument reads
the byte at index `strlen(argv[1]) - 1`; for every non-empty argument that
index is in bounds, but for the empty argument it is -1 — out of bounds,
the unguarded case modelled as the `oobArg` outcome. -/
theorem C10_empty_first_arg :
    (∀ arg : List Nat, arg ≠ [] → argIndexInBounds arg) ∧
    argClassifyIndex [] = -1 ∧
    ¬ argIndexInBounds [] ∧
    (∀ (envScript : Option (List Nat)) (rest : List (List Nat)),
      resolveScript envScript ([] :: rest) = .oobArg) := by
  refine ⟨?_, rfl, ?_, ?_⟩
  · intro arg harg
    have hlen : 1 ≤ arg.length := List.length_pos.mpr harg
    unfold argIndexInBounds argClassifyIndex
    constructor
    · omega
    · omega
  · unfold argIndexInBounds argClassifyIndex
    intro h
    have := h.1
    simp at this
  · intro envScript rest
    simp [resolveScript]

/-- Witness for C10: the one-byte argument `/` is classified in bounds. -/
theorem C10_witness : argIndexInBounds [47] :=
  C10_empty_first_arg.1 [47] (by decide)

/-- Claim C6: every failure of the pipeline produces exactly one response of
the form `Status: <code> <reason>\r\nContent-Type: text/plain\r\n\r\n<msg>\r\n`
with exit status 1 — the same non-zero status for all failure kinds; and when
the pipeline reaches process replacement, an ENOENT failure reports the
Not-Found condition while any other failure reports the generic execution
error carrying the system-reported reason text. -/
theorem C6_error_reporting :
    (∀ (stdin : List Nat) (argvTail : List (List Nat)) (e : EnvF)
      (execR : List Nat → List (List Nat) → EnvF → Option ExecErr)
      (r : String) (c : Nat),
      mainRun stdin argvTail e execR = .failed r c →
      c = 1 ∧ ∃ st m, (r, c) = return_error st m) ∧
    (∀ (stdin : List Nat) (argvTail : List (List Nat)) (e : EnvF)
      (ps : List (List Nat × List Nat)) (rem script : List Nat)
      (cd : Option (List Nat)) (args : List (List Nat)),
      parseScgi stdin = .ok ps rem →
      resolveScript (effEnv e ps nmSCRIPT_FILENAME) argvTail = .resolved script cd args →
      checkPath script cd = none →
      mainRun stdin argvTail e (fun _ _ _ => some .enoent) =
        .failed (respFmt "404 Not Found" "Can't locate CGI script\n") 1 ∧
      ∀ t, mainRun stdin argvTail e (fun _ _ _ => some (.other t)) =
        .failed (respFmt "500 Internal Error"
          ("Unable to execute CGI script, please contact the system administrator\n"
            ++ t ++ "\n")) 1) := by
  constructor
  · intro stdin argvTail e execR r c h
    unfold mainRun at h
    repeat' split at h
    all_goals
      first
      | (injection h with h1 h2
         subst h1
         subst h2
         exact ⟨rfl, _, _, rfl⟩)
      | cases h
  · intro stdin argvTail e ps rem script cd args hparse hres hcheck
    constructor
    · simp only [mainRun, hparse, hres, hcheck, fail, return_error]
    · intro t
      simp only [mainRun, hparse, hres, hcheck, fail, return_error]

/-- Witness for C6: a successfully parsed request whose handler path comes
from `argv[1]`, with `execve` failing ENOENT, yields the 404 response with
exit status 1. -/
theorem C6_witness :
    mainRun [48, 58, 44] [[47, 97]] (fun _ => none) (fun _ _ _ => some .enoent) =
      .failed (respFmt "404 Not Found" "Can't locate CGI script\n") 1 :=
  (C6_error_reporting.2 [48, 58, 44] [[47, 97]] (fun _ => none) [] [] [47, 97] none
    [[47, 97]] (by decide) (by decide) (by decide)).1
